import Mathlib

/-!
Verification development for the PatternFlow training scripts
(`recognition/s46704847_diffusion_OASIS/train.py`,
`recognition/s46967307-VQVAE/model/modules.py`,
`recognition/s46967307-VQVAE/model/train.py`).

The Python/TensorFlow code is shallowly embedded: tensors become lists
(or index functions), TensorFlow ops become the corresponding pure
functions, and the two training scripts become explicit event traces.
Definitions come first, followed by all theorems.
-/

namespace PatternFlow

/-- Hyperparameter from `modules.py`: `latent_dims = 8`. -/
def latent_dims : ℕ := 8

/-- Hyperparameter from `modules.py`: `num_embeddings = 64`. -/
def num_embeddings : ℕ := 64

/-- Hyperparameter from `modules.py`: `beta = 2.0` (commitment-loss weight). -/
def beta : ℚ := 2

section VQMachinery

variable {α : Type} [LinearOrderedCommRing α]

/-- Squared Euclidean norm of a vector.  `tf.norm v` computes the Euclidean
norm `√(Σ vᵢ²)`; since `√` is strictly monotone on nonnegative reals, an
argmin over norms equals the argmin over squared norms, so the embedding
carries the square and stays inside an ordered field. -/
def sqnorm (v : List α) : α := (v.map (fun a => a * a)).sum

/-- `inner(x, y) = tf.norm(tf.math.subtract(x, y))`, squared (see `sqnorm`). -/
def inner_dist2 (x y : List α) : α := sqnorm (List.zipWith (fun a b => a - b) x y)

/-- `outer(y) = tf.vectorized_map(fun x => inner(x, y)) embeddings`:
the (squared) distances from input row `y` to every embedding row. -/
def outer_dists (E : List (List α)) (y : List α) : List α :=
  E.map (fun x => inner_dist2 x y)

/-- `tf.math.argmin` along a vector: the first index attaining the minimum. -/
def argminIdx : List α → ℕ
  | [] => 0
  | [_] => 0
  | a :: b :: t => if a ≤ List.foldl min b t then 0 else argminIdx (b :: t) + 1

/-- `tf.split(l, splits, axis=0)`: `splits` equal chunks of `l`
(requires `splits ∣ l.length` in TensorFlow; out of that domain this
total model still returns `splits` chunks of size `l.length / splits`). -/
def tfSplit (l : List (List α)) (splits : ℕ) : List (List (List α)) :=
  let size := l.length / splits
  (List.range splits).map (fun i => (l.drop (i * size)).take size)

/-- `tf.concat([a, b], axis=1)` on matrices: rowwise append. -/
def concatAx1 (a b : List (List α)) : List (List α) :=
  List.zipWith (fun r s => r ++ s) a b

/-- `tf.one_hot(i, n)`: length-`n` vector, `1` at position `i`, `0`
elsewhere; all zeros when `i ≥ n`. -/
def oneHot : ℕ → ℕ → List α
  | 0, _ => []
  | n + 1, 0 => 1 :: List.replicate n 0
  | n + 1, i + 1 => 0 :: oneHot n i

/-- `tf.matmul` on row-major list matrices. -/
def matmul (A B : List (List α)) : List (List α) :=
  A.map (fun row =>
    (List.range (B.headD []).length).map (fun c =>
      (List.zipWith (fun a brow => a * List.getD brow c 0) row B).sum))

/-- The distance matrix accumulated by `get_indices` for one chunk of the
split input: `tf.vectorized_map(fun y => outer(y), batch)`. -/
def batchResults (E : List (List α)) (batch : List (List α)) : List (List α) :=
  batch.map (fun y => outer_dists E y)

/-- `get_indices(embeddings, inputs_flat, quantize, splits)` from
`modules.py`: split the flat inputs into `splits` chunks, compute each
chunk's distance matrix, concatenate the chunk results along axis 1
(exactly as the source's `tf.concat([results, batch_results], axis=1)`
loop does), take the rowwise argmin, and if `quantize` is set replace each
index by `tf.matmul(tf.one_hot(results, num_embeddings), embeddings)`.
Returns `Sum.inl` of the index list (`quantize=False`) or `Sum.inr` of the
quantized row matrix (`quantize=True`). -/
def get_indices (E : List (List α)) (inputs_flat : List (List α))
    (quantize : Bool) (splits : ℕ) : Sum (List ℕ) (List (List α)) :=
  let split_inputs_flat := tfSplit inputs_flat splits
  let results : List (List α) :=
    match split_inputs_flat with
    | [] => []
    | b :: bs => bs.foldl (fun acc batch => concatAx1 acc (batchResults E batch))
        (batchResults E b)
  let indices := results.map argminIdx
  if quantize then Sum.inr (matmul (indices.map (fun i => oneHot num_embeddings i)) E)
  else Sum.inl indices

/-- The nearest-embedding index of a row, per the specification's reading:
the argmin over Euclidean distances to the embedding rows. -/
def nearestIdx (E : List (List α)) (y : List α) : ℕ :=
  argminIdx (outer_dists E y)

end VQMachinery

/-- Concrete 64 × 8 embedding table (rows `k, k, …, k`) used to exercise
`get_indices` at the shape `(num_embeddings, latent_dims)` of the source. -/
def Ece : List (List ℤ) := (List.range 64).map (fun k => List.replicate 8 (k : ℤ))

/-- Concrete flat input batch of two rows used to exercise `get_indices`. -/
def Ice : List (List ℤ) := [List.replicate 8 3, List.replicate 8 5]

/-- A tensor: a shape and its row-major flat data. -/
structure Tensor (α : Type) where
  shape : List ℕ
  data : List α

/-- `tf.reshape(t, (-1, k))` on row-major flat data: the consecutive rows
of width `k`. -/
def reshapeRows {α : Type} (k : ℕ) (l : List α) : List (List α) :=
  (List.range (l.length / k)).map (fun i => (l.drop (i * k)).take k)

/-- `VQ.call(inputs)` from `modules.py` (lines 136-151), forward value
only: reshape the input to rows of `latent_dims`, quantize them with
`get_indices(self.embeddings, inputs_flat)` (defaults `quantize=True`,
`splits=1`), reshape the result back to the input's shape, and return
`inputs + tf.stop_gradient(results - inputs)`.  `tf.stop_gradient` is the
identity on forward values, and the two `add_loss` terms recorded by the
layer do not affect the returned tensor. -/
def VQ_call {α : Type} [LinearOrderedCommRing α] (E : List (List α)) (t : Tensor α) :
    Tensor α :=
  let inputs_flat := reshapeRows latent_dims t.data
  let results : List (List α) :=
    match get_indices E inputs_flat true 1 with
    | Sum.inr m => m
    | Sum.inl _ => []
  ⟨t.shape, List.zipWith (fun a b => a + (b - a)) t.data results.flatten⟩

/-- Concrete 64 × 8 embedding table used to witness `VQ_call`. -/
def E8 : List (List ℤ) := (List.range 64).map (fun k => List.replicate 8 ((k : ℤ) + 1))

/-- Concrete input tensor (shape `[2, 8]`, 16 flat entries) for `VQ_call`. -/
def T8 : Tensor ℤ := ⟨[2, 8], List.replicate 16 2⟩

section ConvMachinery

variable {α : Type} [LinearOrderedCommRing α]

/-- One batch element: an `H × W` image with `C` channels, entries in `α`. -/
structure Img (H W C : ℕ) (α : Type) where
  pix : Fin H → Fin W → Fin C → α

/-- TensorFlow `padding="same"` output size along one axis: `⌈n / s⌉`. -/
def outDim (n s : ℕ) : ℕ := (n + s - 1) / s

/-- Leading `same` padding along one axis (TensorFlow convention): half of
`max((out - 1) * stride + kernel - in, 0)`, rounded down. -/
def padBeg (n s k : ℕ) : ℤ := (max (((outDim n s : ℤ) - 1) * s + k - n) 0) / 2

/-- Read a pixel at integer indices; out-of-range reads return the zero
padding. -/
def getPad {H W C : ℕ} (x : Img H W C α) (i j : ℤ) (c : Fin C) : α :=
  if h : 0 ≤ i ∧ i < (H : ℤ) ∧ 0 ≤ j ∧ j < (W : ℤ) then
    x.pix ⟨i.toNat, by omega⟩ ⟨j.toNat, by omega⟩ c
  else 0

/-- `tf.keras.layers.Conv2D` with square `k × k` kernel, stride `s`,
`padding="same"`, bias and elementwise activation:
`out[i,j,f] = act(b[f] + Σ_{di,dj,c} K[di,dj,c,f] · in[i·s+di-pad, j·s+dj-pad, c])`. -/
def conv2dSame {H W Cin : ℕ} (s k Cout : ℕ)
    (K : Fin k → Fin k → Fin Cin → Fin Cout → α) (bias : Fin Cout → α)
    (act : α → α) (x : Img H W Cin α) : Img (outDim H s) (outDim W s) Cout α :=
  ⟨fun i j f => act (bias f +
    ∑ di : Fin k, ∑ dj : Fin k, ∑ c : Fin Cin,
      K di dj c f *
        getPad x (((i : ℕ) : ℤ) * s + ((di : ℕ) : ℤ) - padBeg H s k)
          (((j : ℕ) : ℤ) * s + ((dj : ℕ) : ℤ) - padBeg W s k) c)⟩

/-- Leading `same` padding of `tf.keras.layers.Conv2DTranspose` along one
axis (output size is `in · s`): half of `max(k - s, 0)`, rounded down. -/
def padBegT (s k : ℕ) : ℤ := (max ((k : ℤ) - s) 0) / 2

/-- Read from the stride-`s` dilation of an image: position `i` holds
`x[i/s]` when `s ∣ i` (and `i/s` is in range) and the zero padding
otherwise. -/
def readStrided {H W C : ℕ} (x : Img H W C α) (s : ℕ) (i j : ℤ) (c : Fin C) : α :=
  if i % (s : ℤ) = 0 ∧ j % (s : ℤ) = 0 then getPad x (i / s) (j / s) c else 0

/-- `tf.keras.layers.Conv2DTranspose` with square `k × k` kernel, stride
`s`, `padding="same"`, bias and activation: the transpose of the `same`
convolution, i.e. output `o` receives `in[a]·K[p]` whenever
`a·s + p = o + padBegT` (per axis), with the kernel indexed in that
orientation. -/
def convT2dSame {H W Cin : ℕ} (s k Cout : ℕ)
    (K : Fin k → Fin k → Fin Cin → Fin Cout → α) (bias : Fin Cout → α)
    (act : α → α) (x : Img H W Cin α) : Img (H * s) (W * s) Cout α :=
  ⟨fun i j f => act (bias f +
    ∑ di : Fin k, ∑ dj : Fin k, ∑ c : Fin Cin,
      K di dj c f *
        readStrided x s (((i : ℕ) : ℤ) + padBegT s k - ((di : ℕ) : ℤ))
          (((j : ℕ) : ℤ) + padBegT s k - ((dj : ℕ) : ℤ)) c)⟩

/-- `activation='relu'`: `max(x, 0)`. -/
def relu (a : α) : α := max a 0

/-- The two mask types of `PixelConvLayer`. -/
inductive MaskType where
  | A
  | B
deriving DecidableEq

/-- The mask built in `PixelConvLayer.build` (`modules.py` lines 19-31),
read off from the numpy assignment sequence (a later assignment
overrides an earlier one, so the value is given by the last applicable
assignment): start from zeros; set rows above the center row
(`mask[:kh//2, ...] = 1`); set the center row left of the center
(`mask[kh//2, :kw//2, ...] = 1`); set the center itself to 0; finally,
for mask type `"B"`, set the center to 1.  The slices end in `...`, so
the mask is constant across the two channel axes and they are omitted. -/
def maskVal (kh kw : ℕ) (mt : MaskType) (i j : ℕ) : α :=
  if mt = MaskType.B ∧ i = kh / 2 ∧ j = kw / 2 then 1
  else if i = kh / 2 ∧ j = kw / 2 then 0
  else if i = kh / 2 ∧ j < kw / 2 then 1
  else if i < kh / 2 then 1
  else 0

/-- `PixelConvLayer.call` (`modules.py` lines 33-35):
`self.conv.kernel.assign(self.conv.kernel * self.mask)` followed by the
convolution (stride 1, `padding="same"`).  Returns the updated stored
kernel together with the output computed from it. -/
def pixelConvCall {H W Cin : ℕ} (mt : MaskType) (k Cout : ℕ)
    (K : Fin k → Fin k → Fin Cin → Fin Cout → α) (bias : Fin Cout → α)
    (act : α → α) (x : Img H W Cin α) :
    (Fin k → Fin k → Fin Cin → Fin Cout → α)
      × Img (outDim H 1) (outDim W 1) Cout α :=
  let maskedK := fun di dj c f => K di dj c f * maskVal k k mt (di : ℕ) (dj : ℕ)
  (maskedK, conv2dSame 1 k Cout maskedK bias act x)

end ConvMachinery

/-- The channel vector at pixel `(i, j)`: the latent row that
`tf.reshape(inputs, (-1, latent_dims))` extracts there. -/
def chanRow {H W C : ℕ} {α : Type} (x : Img H W C α) (i : Fin H) (j : Fin W) : List α :=
  (List.finRange C).map (fun c => x.pix i j c)

/-- The quantized replacement of one latent row, routed through
`get_indices` exactly as `VQ.call` does (defaults `quantize=True`,
`splits=1`); `get_indices` acts rowwise, so the per-row call agrees with
the batched one. -/
def quantizeRow {α : Type} [LinearOrderedCommRing α] (E : List (List α))
    (y : List α) : List α :=
  match get_indices E [y] true 1 with
  | Sum.inr m => m.headD []
  | Sum.inl _ => []

/-- `VQ.call` on one batch element of the encoded image.  The reshape to
rows of `latent_dims` and back is the index correspondence
`(i, j, c) ↦ (row at (i, j), column c)`, and the straight-through return
`inputs + tf.stop_gradient(results - inputs)` is elementwise. -/
def vqImg {H W : ℕ} {α : Type} [LinearOrderedCommRing α] (E : List (List α))
    (x : Img H W latent_dims α) : Img H W latent_dims α :=
  ⟨fun i j c =>
    x.pix i j c + (List.getD (quantizeRow E (chanRow x i j)) (c : ℕ) 0 - x.pix i j c)⟩

/-- `activation='sigmoid'` of the decoder's final `to_image` layer:
`σ(x) = 1 / (1 + e^{-x})`. -/
noncomputable def sigmoid (x : ℝ) : ℝ := 1 / (1 + Real.exp (-x))

/-- The learned weights of the `AE` model: the encoder's six stride-2
compression convolutions and its `to_latent` convolution, the VQ
embedding table, and the decoder's six stride-2 reconstruction transpose
convolutions and its final `to_image` transpose convolution. -/
structure AEParams (α : Type) where
  enc0K : Fin 3 → Fin 3 → Fin 1 → Fin 64 → α
  enc0b : Fin 64 → α
  encK : Fin 5 → Fin 3 → Fin 3 → Fin 64 → Fin 64 → α
  encb : Fin 5 → Fin 64 → α
  latK : Fin 3 → Fin 3 → Fin 64 → Fin latent_dims → α
  latb : Fin latent_dims → α
  emb : List (List α)
  dec0K : Fin 3 → Fin 3 → Fin latent_dims → Fin 64 → α
  dec0b : Fin 64 → α
  decK : Fin 5 → Fin 3 → Fin 3 → Fin 64 → Fin 64 → α
  decb : Fin 5 → Fin 64 → α
  imgK : Fin 3 → Fin 3 → Fin 64 → Fin 1 → α
  imgb : Fin 1 → α

/-- The `AE` encoder (`modules.py` lines 157-180): six stride-2 `same`
3 × 3 relu convolutions with 64 filters (`compression_0 … compression_5`,
halving 256 down to 4), then a stride-1 `same` 3 × 3 relu convolution to
`latent_dims` filters (`to_latent`). -/
def encoderCall {α : Type} [LinearOrderedCommRing α] (p : AEParams α)
    (x : Img 256 256 1 α) : Img 4 4 latent_dims α :=
  conv2dSame 1 3 latent_dims p.latK p.latb relu
    (conv2dSame 2 3 64 (p.encK 4) (p.encb 4) relu
      (conv2dSame 2 3 64 (p.encK 3) (p.encb 3) relu
        (conv2dSame 2 3 64 (p.encK 2) (p.encb 2) relu
          (conv2dSame 2 3 64 (p.encK 1) (p.encb 1) relu
            (conv2dSame 2 3 64 (p.encK 0) (p.encb 0) relu
              (conv2dSame 2 3 64 p.enc0K p.enc0b relu x))))))

/-- The `AE` decoder (`modules.py` lines 190-211): six stride-2 `same`
3 × 3 relu transpose convolutions with 64 filters
(`reconstruct_0 … reconstruct_5`, doubling 4 up to 256), then a stride-1
`same` 3 × 3 transpose convolution to one filter with sigmoid activation
(`to_image`). -/
noncomputable def decoderCall (p : AEParams ℝ) (y : Img 4 4 latent_dims ℝ) :
    Img 256 256 1 ℝ :=
  convT2dSame 1 3 1 p.imgK p.imgb sigmoid
    (convT2dSame 2 3 64 (p.decK 4) (p.decb 4) relu
      (convT2dSame 2 3 64 (p.decK 3) (p.decb 3) relu
        (convT2dSame 2 3 64 (p.decK 2) (p.decb 2) relu
          (convT2dSame 2 3 64 (p.decK 1) (p.decb 1) relu
            (convT2dSame 2 3 64 (p.decK 0) (p.decb 0) relu
              (convT2dSame 2 3 64 p.dec0K p.dec0b relu y))))))

/-- `AE.call(inputs)` (`modules.py` lines 242-243) on one batch element:
`decoder(vq(encoder(inputs)))`. -/
noncomputable def AE_call (p : AEParams ℝ) (x : Img 256 256 1 ℝ) : Img 256 256 1 ℝ :=
  decoderCall p (vqImg p.emb (encoderCall p x))

/-- `AE.call` on a batch of `N` images: convolutions, the VQ row lookup
and the activations all act independently per batch element. -/
noncomputable def AE_call_batch {N : ℕ} (p : AEParams ℝ)
    (x : Fin N → Img 256 256 1 ℝ) : Fin N → Img 256 256 1 ℝ :=
  fun n => AE_call p (x n)

/-- Constant from the top of the diffusion `train.py`: dataset path. -/
def PATH : String := "/Users/wangzhao/Documents/dataset/keras_png_slices_data.zip"

/-- Constant from the top of the diffusion `train.py`. -/
def NUMBER_OF_SAMPLES : ℕ := 2000

/-- Constant from the top of the diffusion `train.py`. -/
def IMAGE_SIZE : ℕ × ℕ := (64, 64)

/-- Constant from the top of the diffusion `train.py`: checkpoint path. -/
def CKPT_PATH : String := "/Users/wangzhao/Documents/checkpoint"

/-- Constant from the top of the diffusion `train.py` (sic). -/
def EPOCS : ℕ := 30

/-- Constant from the top of the diffusion `train.py`. -/
def BATCH_SIZE : ℕ := 64

/-- Literal `epochs=2` in the `model.fit` call of the VQ-VAE `train.py`. -/
def vqvaeEpochs : ℕ := 2

/-- Literal `batch_size=8` in the `model.fit` call of the VQ-VAE `train.py`. -/
def vqvaeBatchSize : ℕ := 8

/-- The claim-relevant events a training script can perform. -/
inductive SEv where
  | setEnvVar (key val : String)
  | loadDataset
  | preprocessBatch
  | constructModel
  | computeLoss
  | applyGradients
  | checkpoint (n : ℕ)
  | predictStep
  | saveModel (path : String)
deriving DecidableEq

/-- One epoch's worth of per-batch training events (each batch iteration
computes a loss and applies gradients). -/
def batchEvents (nb : ℕ) : List SEv :=
  (List.replicate nb [SEv.computeLoss, SEv.applyGradients]).flatten

/-- The diffusion script's `for e in range(1, EPOCS+1)` loop: epoch `e`
runs its batches and then calls `ckpt_manager.save(checkpoint_number=e)`. -/
def diffEpochLoop (nb : ℕ) : ℕ → List SEv
  | 0 => []
  | e + 1 => diffEpochLoop nb e ++ (batchEvents nb ++ [SEv.checkpoint (e + 1)])

/-- Event trace of the diffusion `train.py`, in source order: load the
zipped dataset and normalize (line 32), batch it (line 33), build the
U-Net and checkpoint manager (line 36), then the epoch loop (lines 56-67). -/
def diffusionTrace (nb : ℕ) : List SEv :=
  [SEv.loadDataset, SEv.preprocessBatch, SEv.constructModel] ++ diffEpochLoop nb EPOCS

/-- The `model.fit(..., epochs=2, ...)` loop of the VQ-VAE script: each
epoch runs its batches (the framework calls `AE.train_step` per batch). -/
def fitLoop (nb : ℕ) : ℕ → List SEv
  | 0 => []
  | e + 1 => fitLoop nb e ++ batchEvents nb

/-- Event trace of the VQ-VAE `model/train.py`, in source order: set
`TF_CPP_MIN_LOG_LEVEL` (line 2), construct and compile `AE()` (lines
14-15), load the data (line 23), fit (lines 28-32), predict (line 35),
save to `"model.ckpt"` (line 39). -/
def vqvaeTrace (nb : ℕ) : List SEv :=
  [SEv.setEnvVar "TF_CPP_MIN_LOG_LEVEL" "1", SEv.constructModel, SEv.loadDataset]
    ++ fitLoop nb vqvaeEpochs ++ [SEv.predictStep, SEv.saveModel "model.ckpt"]

/-- Recognizer for checkpoint events. -/
def isCkpt : SEv → Bool
  | SEv.checkpoint _ => true
  | _ => false

/-- Recognizer for saved-model events. -/
def isSave : SEv → Bool
  | SEv.saveModel _ => true
  | _ => false

/-- A script run over an outcome oracle for its steps: neither script has
a `try`/`except`, so the run is the plain left-to-right sequencing that
stops at (and returns) the first exception. -/
def runScript {ε : Type} (outcome : SEv → Except ε Unit) : List SEv → Except ε Unit
  | [] => Except.ok ()
  | s :: t =>
    match outcome s with
    | Except.error e => Except.error e
    | Except.ok _ => runScript outcome t

/-- Outcome oracle in which dataset loading raises (e.g. a missing
dataset path) and every other step succeeds. -/
def failOnLoad : SEv → Except String Unit := fun s =>
  if s = SEv.loadDataset then Except.error "missing dataset path" else Except.ok ()

/-- The diffusion script as a function of the process argument vector:
the source never imports `sys` nor reads `sys.argv`, so the trace does not
depend on `argv`. -/
def diffusionMain (argv : List String) (nb : ℕ) : List SEv := diffusionTrace nb

/-- The VQ-VAE script as a function of the process argument vector: the
source never reads `sys.argv`, so the trace does not depend on `argv`. -/
def vqvaeMain (argv : List String) (nb : ℕ) : List SEv := vqvaeTrace nb

/-- A process environment: a partial map from variable names to values. -/
def EnvState : Type := String → Option String

/-- Effect of running the diffusion `train.py` on the process environment:
the script contains no reference to `os.environ`. -/
def diffusionEnvAfter (env : EnvState) : EnvState := env

/-- Effect of running the VQ-VAE `model/train.py` on the process
environment: line 2 executes `os.environ['TF_CPP_MIN_LOG_LEVEL'] = '1'`,
and nothing else in the script reads or writes the environment. -/
def vqvaeEnvAfter (env : EnvState) : EnvState :=
  fun k => if k = "TF_CPP_MIN_LOG_LEVEL" then some "1" else env k

/-- The empty process environment. -/
def emptyEnv : EnvState := fun _ => none

/-- Modelled from the spec: the diffusion `modules.py` and `dataset.py`
are not under `src/`, so the functions the training script imports from
them (`generate_timestamp`, `forward_noise`, the U-Net forward pass,
`loss_fn`) and the framework's gradient tape and Adam
`opt.apply_gradients` are opaque parameters, matching the spec's account
of the script as wiring framework primitives (a noising schedule, a U-Net
denoiser, a loss, autodiff, and the Adam optimizer). -/
structure DiffEnv (B TS L V G : Type) where
  generate_timestamp : ℕ → ℕ → TS
  forward_noise : ℕ → B → TS → B × B
  unet : B → TS → B
  loss_fn : B → B → L
  tapeGradient : L → V → G
  adamApplyGradients : G → V → V
  batchLen : B → ℕ

/-- `train_step(batch)` from the diffusion `train.py` (lines 41-54): the
two random draws `rng, tsrng = np.random.randint(0, 300, size=(2,))` are
passed explicitly; the step builds the timestep tensor, noises the batch,
runs the U-Net on the noised image, takes the loss against the true
noise, differentiates it, applies the gradients with the Adam optimizer,
and returns the loss. -/
def train_step {B TS L V G : Type} (env : DiffEnv B TS L V G) (vars : V)
    (rng tsrng : ℕ) (batch : B) : L × V :=
  let timestep_values := env.generate_timestamp tsrng (env.batchLen batch)
  let nn := env.forward_noise rng batch timestep_values
  let noised_image := nn.1
  let noise := nn.2
  let prediction := env.unet noised_image timestep_values
  let loss_value := env.loss_fn noise prediction
  let gradients := env.tapeGradient loss_value vars
  (loss_value, env.adamApplyGradients gradients vars)

/-! ## Theorems -/

section VQLemmas

variable {α : Type} [LinearOrderedCommRing α]

theorem argminIdx_lt : ∀ (l : List α), l ≠ [] → argminIdx l < l.length
  | [], h => absurd rfl h
  | [_], _ => by simp [argminIdx]
  | a :: b :: t, _ => by
    simp only [argminIdx]
    split
    · simp
    · have ih := argminIdx_lt (b :: t) (by simp)
      simpa [Nat.succ_lt_succ_iff] using ih

theorem foldl_min_le_init : ∀ (t : List α) (a : α), List.foldl min a t ≤ a
  | [], a => le_refl a
  | c :: t, a => le_trans (foldl_min_le_init t (min a c)) (min_le_left a c)

theorem foldl_min_le_mem : ∀ (t : List α) (b x : α), x ∈ b :: t → List.foldl min b t ≤ x := by
  intro t
  induction t with
  | nil =>
    intro b x hx
    simp only [List.mem_singleton] at hx
    simp [hx]
  | cons c t ih =>
    intro b x hx
    simp only [List.foldl_cons]
    rcases List.mem_cons.mp hx with h | h
    · subst h
      exact le_trans (foldl_min_le_init t (min x c)) (min_le_left x c)
    · rcases List.mem_cons.mp h with h2 | h2
      · subst h2
        exact le_trans (foldl_min_le_init t (min b x)) (min_le_right b x)
      · exact ih (min b c) x (List.mem_cons_of_mem _ h2)

theorem foldl_min_comm : ∀ (t : List α) (a b : α),
    List.foldl min (min a b) t = min a (List.foldl min b t)
  | [], _, _ => rfl
  | c :: t, a, b => by
    simp only [List.foldl_cons]
    rw [min_assoc, foldl_min_comm t a (min b c)]

theorem argminIdx_getD : ∀ (b : α) (t : List α),
    List.getD (b :: t) (argminIdx (b :: t)) 0 = List.foldl min b t
  | _, [] => rfl
  | b, c :: t => by
    simp only [argminIdx]
    split
    · next h =>
      simp only [List.getD_cons_zero, List.foldl_cons]
      rw [foldl_min_comm t b c]
      exact (min_eq_left h).symm
    · next h =>
      have hm : List.foldl min c t ≤ b := le_of_lt (lt_of_not_le h)
      simp only [List.getD_cons_succ, List.foldl_cons]
      rw [argminIdx_getD c t, foldl_min_comm t b c]
      exact (min_eq_right hm).symm

theorem argminIdx_min (l : List α) (j : ℕ) (hj : j < l.length) :
    List.getD l (argminIdx l) 0 ≤ List.getD l j 0 := by
  match l with
  | [] => exact absurd hj (Nat.not_lt_zero j)
  | b :: t =>
    rw [argminIdx_getD b t, List.getD_eq_getElem (b :: t) 0 hj]
    exact foldl_min_le_mem t b _ (List.getElem_mem hj)

theorem tfSplit_one (l : List (List α)) : tfSplit l 1 = [l] := by
  have h1 : List.range 1 = [0] := rfl
  simp [tfSplit, h1]

theorem get_indices_false_one (E I : List (List α)) :
    get_indices E I false 1 = Sum.inl (I.map (fun y => nearestIdx E y)) := by
  simp [get_indices, tfSplit_one, batchResults, nearestIdx, List.map_map, Function.comp]

theorem zipWith_replicate_zero_sum (c : ℕ) :
    ∀ (t : List (List α)) (n : ℕ),
      (List.zipWith (fun a brow => a * List.getD brow c 0) (List.replicate n (0 : α)) t).sum = 0
  | [], _ => by simp
  | _ :: _, 0 => by simp
  | s :: t, n + 1 => by
    simp only [List.replicate_succ, List.zipWith_cons_cons, List.sum_cons, zero_mul, zero_add]
    exact zipWith_replicate_zero_sum c t n

theorem zipWith_oneHot_sum (c : ℕ) :
    ∀ (E : List (List α)) (i : ℕ), i < E.length →
      (List.zipWith (fun a brow => a * List.getD brow c 0) (oneHot E.length i) E).sum
        = List.getD (List.getD E i []) c 0
  | [], i, hi => absurd hi (Nat.not_lt_zero i)
  | r :: t, 0, _ => by
    simp only [List.length_cons, oneHot, List.zipWith_cons_cons, List.sum_cons, one_mul,
      List.getD_cons_zero]
    rw [zipWith_replicate_zero_sum c t t.length, add_zero]
  | r :: t, i + 1, hi => by
    simp only [List.length_cons, oneHot, List.zipWith_cons_cons, List.sum_cons, zero_mul,
      zero_add, List.getD_cons_succ]
    exact zipWith_oneHot_sum c t i (Nat.lt_of_succ_lt_succ hi)

theorem range_map_getD (l : List α) (m : ℕ) (hm : l.length = m) :
    (List.range m).map (fun c => List.getD l c 0) = l := by
  subst hm
  apply List.ext_get
  · simp
  · intro n h1 h2
    simp only [List.get_eq_getElem, List.getElem_map, List.getElem_range]
    rw [List.getD_eq_getElem l 0 h2]

theorem getD_map_dist (E : List (List α)) (y : List α) (j : ℕ) (hj : j < E.length) :
    List.getD (outer_dists E y) j 0 = inner_dist2 (List.getD E j []) y := by
  have hj2 : j < (outer_dists E y).length := by simpa [outer_dists] using hj
  rw [List.getD_eq_getElem _ 0 hj2, List.getD_eq_getElem E [] hj]
  simp [outer_dists]

theorem get_indices_true_one (E I : List (List α)) (hE : E.length = num_embeddings)
    (hr : ∀ r ∈ E, r.length = latent_dims) :
    get_indices E I true 1 = Sum.inr (I.map (fun y => List.getD E (nearestIdx E y) [])) := by
  match E, hE with
  | r :: t, hE =>
    simp only [get_indices, tfSplit_one, batchResults, matmul, List.foldl_nil, if_true,
      List.map_map]
    congr 1
    apply List.map_congr_left
    intro y _
    simp only [Function.comp_apply]
    have hcols : ((r :: t).headD []).length = latent_dims := hr r (List.mem_cons_self r t)
    have hne : outer_dists (r :: t) y ≠ [] := by simp [outer_dists]
    have hidx : nearestIdx (r :: t) y < (r :: t).length := by
      have := argminIdx_lt (outer_dists (r :: t) y) hne
      simpa [outer_dists, nearestIdx] using this
    have hrow : (List.getD (r :: t) (nearestIdx (r :: t) y) []).length = latent_dims := by
      rw [List.getD_eq_getElem (r :: t) [] hidx]
      exact hr _ (List.getElem_mem hidx)
    calc (List.range ((r :: t).headD []).length).map (fun c =>
            (List.zipWith (fun a brow => a * List.getD brow c 0)
              (oneHot num_embeddings (argminIdx (outer_dists (r :: t) y))) (r :: t)).sum)
        = (List.range latent_dims).map (fun c =>
            List.getD (List.getD (r :: t) (nearestIdx (r :: t) y) []) c 0) := by
          rw [hcols]
          apply List.map_congr_left
          intro c _
          rw [← hE]
          exact zipWith_oneHot_sum c (r :: t) _ hidx
      _ = List.getD (r :: t) (nearestIdx (r :: t) y) [] :=
          range_map_getD _ latent_dims hrow

end VQLemmas

/-- C1 (amended: restricted to `splits = 1`, the default and the only value
used by `VQ.call`): `get_indices` with `quantize=False` returns, for each
input row, the first index of an embedding row at minimal (squared, hence
also Euclidean) distance to that row, and with `quantize=True` returns that
nearest embedding row itself. -/
theorem C1_get_indices_argmin {α : Type} [LinearOrderedCommRing α]
    (E I : List (List α)) (hE : E.length = num_embeddings)
    (hr : ∀ r ∈ E, r.length = latent_dims) :
    get_indices E I false 1 = Sum.inl (I.map (fun y => nearestIdx E y))
    ∧ (∀ y ∈ I, nearestIdx E y < E.length ∧
        ∀ j, j < E.length →
          inner_dist2 (List.getD E (nearestIdx E y) []) y
            ≤ inner_dist2 (List.getD E j []) y)
    ∧ get_indices E I true 1 = Sum.inr (I.map (fun y => List.getD E (nearestIdx E y) [])) := by
  refine ⟨get_indices_false_one E I, ?_, get_indices_true_one E I hE hr⟩
  intro y _
  have hne : outer_dists E y ≠ [] := by
    have : E ≠ [] := by
      intro h
      rw [h] at hE
      exact absurd hE.symm (by simp [num_embeddings])
    simpa [outer_dists] using this
  have hidx : nearestIdx E y < E.length := by
    have := argminIdx_lt (outer_dists E y) hne
    simpa [outer_dists, nearestIdx] using this
  refine ⟨hidx, fun j hj => ?_⟩
  have hj2 : j < (outer_dists E y).length := by simpa [outer_dists] using hj
  have hmin := argminIdx_min (outer_dists E y) j hj2
  have hidx2 : argminIdx (outer_dists E y) < E.length := hidx
  rw [getD_map_dist E y j hj, getD_map_dist E y (argminIdx (outer_dists E y)) hidx2] at hmin
  exact hmin

set_option maxRecDepth 20000 in
/-- C1 witness: the amended theorem applied to the concrete table `Ece`
and batch `Ice`. -/
theorem C1_get_indices_argmin_witness :
    get_indices Ece Ice false 1 = Sum.inl (Ice.map (fun y => nearestIdx Ece y))
    ∧ get_indices Ece Ice true 1
        = Sum.inr (Ice.map (fun y => List.getD Ece (nearestIdx Ece y) [])) :=
  ⟨(C1_get_indices_argmin Ece Ice (by decide) (by decide)).1,
   (C1_get_indices_argmin Ece Ice (by decide) (by decide)).2.2⟩

set_option maxRecDepth 20000 in
/-- C1 counterexample: with `splits = 2` (which evenly divides the two
input rows), `get_indices` concatenates the two chunks' distance matrices
along axis 1, so it returns a single argmin index `[3]` instead of one
nearest index per input row (`[3, 5]`): the claim fails for `splits ≠ 1`. -/
theorem C1_counterexample :
    2 ∣ Ice.length
    ∧ get_indices Ece Ice false 2 = Sum.inl [3]
    ∧ Ice.map (fun y => nearestIdx Ece y) = [3, 5]
    ∧ get_indices Ece Ice false 2 ≠ Sum.inl (Ice.map (fun y => nearestIdx Ece y)) :=
  ⟨by decide, by decide, by decide, by decide⟩

theorem zipWith_straight_through {α : Type} [LinearOrderedCommRing α] :
    ∀ (x y : List α), x.length = y.length →
      List.zipWith (fun a b => a + (b - a)) x y = y
  | [], [], _ => rfl
  | [], _ :: _, h => by simp at h
  | _ :: _, [], h => by simp at h
  | a :: x, b :: y, h => by
    simp only [List.zipWith_cons_cons]
    rw [zipWith_straight_through x y (by simpa using h)]
    congr 1
    ring

/-- C8: for every input tensor whose flat data is a whole number of
latent rows, `VQ.call`'s forward value is exactly the
nearest-codebook-entry replacement of each latent row, reshaped to the
input's shape: the output keeps the input's shape and its data is the
flattening of the per-row nearest embedding vectors. -/
theorem C8_vq_forward {α : Type} [LinearOrderedCommRing α] (E : List (List α))
    (t : Tensor α) (hE : E.length = num_embeddings)
    (hr : ∀ r ∈ E, r.length = latent_dims) (hdiv : latent_dims ∣ t.data.length) :
    (VQ_call E t).shape = t.shape
    ∧ (VQ_call E t).data
        = ((reshapeRows latent_dims t.data).map
            (fun y => List.getD E (nearestIdx E y) [])).flatten := by
  refine ⟨rfl, ?_⟩
  have hq := get_indices_true_one E (reshapeRows latent_dims t.data) hE hr
  simp only [VQ_call, hq]
  apply zipWith_straight_through
  rw [List.length_flatten]
  have hne : E ≠ [] := by
    intro h
    rw [h] at hE
    exact absurd hE.symm (by simp [num_embeddings])
  have hmap : (((reshapeRows latent_dims t.data).map
      (fun y => List.getD E (nearestIdx E y) [])).map List.length)
      = List.replicate (reshapeRows latent_dims t.data).length latent_dims := by
    rw [List.map_map]
    have hlen : ∀ b ∈ (reshapeRows latent_dims t.data).map
        (List.length ∘ fun y => List.getD E (nearestIdx E y) []), b = latent_dims := by
      intro b hb
      obtain ⟨y, _, rfl⟩ := List.mem_map.mp hb
      have hidx : nearestIdx E y < E.length := by
        have hne2 : outer_dists E y ≠ [] := by simpa [outer_dists] using hne
        have := argminIdx_lt (outer_dists E y) hne2
        simpa [outer_dists, nearestIdx] using this
      simp only [Function.comp_apply]
      rw [List.getD_eq_getElem E [] hidx]
      exact hr _ (List.getElem_mem hidx)
    have := List.eq_replicate_of_mem hlen
    simpa using this
  rw [hmap, List.sum_replicate, smul_eq_mul]
  have hrows : (reshapeRows latent_dims t.data).length = t.data.length / latent_dims := by
    simp [reshapeRows]
  rw [hrows, Nat.div_mul_cancel hdiv]

set_option maxRecDepth 20000 in
/-- C8 witness: `VQ_call` evaluated on the concrete table `E8` and
tensor `T8`. -/
theorem C8_vq_forward_witness :
    (VQ_call E8 T8).shape = T8.shape
    ∧ (VQ_call E8 T8).data
        = ((reshapeRows latent_dims T8.data).map
            (fun y => List.getD E8 (nearestIdx E8 y) [])).flatten :=
  C8_vq_forward E8 T8 (by decide) (by decide) (by decide)

/-- C9: the PixelConvLayer mask enforces autoregressive causality: for
both mask types every kernel position strictly after the center in raster
order (any row below the center row, or right of the center within the
center row) is zero; the center is 0 for type "A" and 1 for type "B"; and
`call` multiplies the stored kernel by the mask before every application,
so the effective kernel vanishes strictly after the center and the output
is the convolution with the masked kernel. -/
theorem C9_pixelconv_mask {α : Type} [LinearOrderedCommRing α] :
    (∀ (kh kw : ℕ) (mt : MaskType) (i j : ℕ),
      (kh / 2 < i ∨ (i = kh / 2 ∧ kw / 2 < j)) → (maskVal kh kw mt i j : α) = 0)
    ∧ (∀ kh kw : ℕ, (maskVal kh kw MaskType.A (kh / 2) (kw / 2) : α) = 0)
    ∧ (∀ kh kw : ℕ, (maskVal kh kw MaskType.B (kh / 2) (kw / 2) : α) = 1)
    ∧ (∀ (H W Cin k Cout : ℕ) (mt : MaskType)
        (K : Fin k → Fin k → Fin Cin → Fin Cout → α) (bias : Fin Cout → α)
        (act : α → α) (x : Img H W Cin α),
        (∀ (di dj : Fin k) (c : Fin Cin) (f : Fin Cout),
          (k / 2 < (di : ℕ) ∨ ((di : ℕ) = k / 2 ∧ k / 2 < (dj : ℕ))) →
          (pixelConvCall mt k Cout K bias act x).1 di dj c f = 0)
        ∧ (pixelConvCall mt k Cout K bias act x).2
            = conv2dSame 1 k Cout (pixelConvCall mt k Cout K bias act x).1 bias act x) := by
  have hafter : ∀ (kh kw : ℕ) (mt : MaskType) (i j : ℕ),
      (kh / 2 < i ∨ (i = kh / 2 ∧ kw / 2 < j)) → (maskVal kh kw mt i j : α) = 0 := by
    intro kh kw mt i j h
    rcases h with h | ⟨hi, hj⟩
    · have h1 : ¬ (i = kh / 2) := by omega
      have h2 : ¬ (i < kh / 2) := by omega
      simp [maskVal, h1, h2]
    · subst hi
      have h2 : ¬ (j = kw / 2) := by omega
      have h3 : ¬ (j < kw / 2) := by omega
      simp [maskVal, h2, h3]
  refine ⟨hafter, ?_, ?_, ?_⟩
  · intro kh kw
    simp [maskVal]
  · intro kh kw
    simp [maskVal]
  · intro H W Cin k Cout mt K bias act x
    refine ⟨fun di dj c f h => ?_, rfl⟩
    show K di dj c f * maskVal k k mt (di : ℕ) (dj : ℕ) = 0
    rw [hafter k k mt (di : ℕ) (dj : ℕ) h, mul_zero]

/-- C9 witness: the mask of a 3 × 3 kernel at the position directly below
the center (type "A") and at the position right of the center in the
center row (type "B"); the effective kernel of a `call` on a 1 × 1 image
at a below-center position; and the two center values. -/
theorem C9_pixelconv_mask_witness :
    (maskVal 3 3 MaskType.A 2 1 : ℤ) = 0
    ∧ (maskVal 3 3 MaskType.B 1 2 : ℤ) = 0
    ∧ (maskVal 3 3 MaskType.A 1 1 : ℤ) = 0
    ∧ (maskVal 3 3 MaskType.B 1 1 : ℤ) = 1 :=
  ⟨(C9_pixelconv_mask (α := ℤ)).1 3 3 MaskType.A 2 1 (Or.inl (by decide)),
   (C9_pixelconv_mask (α := ℤ)).1 3 3 MaskType.B 1 2 (Or.inr (by decide)),
   (C9_pixelconv_mask (α := ℤ)).2.1 3 3,
   (C9_pixelconv_mask (α := ℤ)).2.2.1 3 3⟩

theorem sigmoid_mem_unit (t : ℝ) : 0 ≤ sigmoid t ∧ sigmoid t ≤ 1 := by
  have hpos : 0 < 1 + Real.exp (-t) := by positivity
  constructor
  · exact le_of_lt (div_pos one_pos hpos)
  · rw [sigmoid, div_le_one hpos]
    have := Real.exp_pos (-t)
    linarith

/-- C10: for every input batch of shape `(N, 256, 256, 1)`, the VQ-VAE
forward pass `AE.call` (decoder ∘ VQ layer ∘ encoder) returns a tensor of
the same shape `(N, 256, 256, 1)` — enforced by the index types of
`AE_call_batch`, whose output is again `Fin N → Img 256 256 1 ℝ` — with
every element in the closed interval `[0, 1]`, because the decoder's
final `to_image` layer applies a sigmoid activation. -/
theorem C10_ae_output_range {N : ℕ} (p : AEParams ℝ) (x : Fin N → Img 256 256 1 ℝ)
    (n : Fin N) (i j : Fin 256) (c : Fin 1) :
    0 ≤ (AE_call_batch p x n).pix i j c ∧ (AE_call_batch p x n).pix i j c ≤ 1 :=
  sigmoid_mem_unit _

theorem batchEvents_succ (nb : ℕ) :
    batchEvents (nb + 1) = SEv.computeLoss :: SEv.applyGradients :: batchEvents nb := by
  simp [batchEvents, List.replicate_succ]

theorem filter_batchEvents (p : SEv → Bool) (hcl : p SEv.computeLoss = false)
    (hag : p SEv.applyGradients = false) : ∀ nb, (batchEvents nb).filter p = []
  | 0 => rfl
  | nb + 1 => by
    rw [batchEvents_succ]
    simp [List.filter_cons, hcl, hag, filter_batchEvents p hcl hag nb]

theorem range'_snoc : ∀ (n s : ℕ), List.range' s (n + 1) = List.range' s n ++ [s + n]
  | 0, s => by simp [List.range']
  | n + 1, s => by
    rw [List.range'_succ, range'_snoc n (s + 1), List.range'_succ]
    simp [Nat.add_assoc, Nat.add_comm 1 n]

theorem filter_diffEpochLoop (nb : ℕ) :
    ∀ e, (diffEpochLoop nb e).filter isCkpt = (List.range' 1 e).map SEv.checkpoint
  | 0 => rfl
  | e + 1 => by
    rw [diffEpochLoop]
    simp only [List.filter_append, filter_diffEpochLoop nb e,
      filter_batchEvents isCkpt rfl rfl nb]
    rw [range'_snoc e 1]
    simp [isCkpt, Nat.add_comm e 1]

theorem filter_fitLoop (p : SEv → Bool) (hcl : p SEv.computeLoss = false)
    (hag : p SEv.applyGradients = false) (nb : ℕ) : ∀ e, (fitLoop nb e).filter p = []
  | 0 => rfl
  | e + 1 => by
    rw [fitLoop]
    simp [List.filter_append, filter_fitLoop p hcl hag nb e,
      filter_batchEvents p hcl hag nb]

/-- C2 counterexample: in the VQ-VAE script's trace (one batch per epoch),
`constructModel` and `loadDataset` each occur exactly once, and the model
is constructed strictly before the dataset is loaded — refuting the
claim's "dataset loading happens before model construction in both". -/
theorem C2_counterexample :
    (vqvaeTrace 1).count SEv.constructModel = 1
    ∧ (vqvaeTrace 1).count SEv.loadDataset = 1
    ∧ List.indexOf SEv.constructModel (vqvaeTrace 1)
        < List.indexOf SEv.loadDataset (vqvaeTrace 1) := by
  refine ⟨by decide, by decide, by decide⟩

/-- C2 (amended): both scripts are linear pipelines, but only the diffusion
script loads the dataset before constructing the model; the VQ-VAE script
constructs (and compiles) the model first and loads the dataset afterwards.
In both, training (loss computation, gradient application) follows both
steps, and the diffusion script checkpoints after epoch 1's batches while
the VQ-VAE script saves once at the very end. -/
theorem C2_pipeline_order (nb : ℕ) (h : 1 ≤ nb) :
    [SEv.loadDataset, SEv.preprocessBatch, SEv.constructModel, SEv.computeLoss,
        SEv.applyGradients, SEv.checkpoint 1].Sublist (diffusionTrace nb)
    ∧ [SEv.constructModel, SEv.loadDataset, SEv.computeLoss, SEv.applyGradients,
        SEv.saveModel "model.ckpt"].Sublist (vqvaeTrace nb) := by
  obtain ⟨m, rfl⟩ : ∃ m, nb = m + 1 := ⟨nb - 1, (Nat.succ_pred_eq_of_pos h).symm⟩
  constructor
  · have hloop : ∃ rest, diffEpochLoop (m + 1) EPOCS
        = batchEvents (m + 1) ++ (SEv.checkpoint 1 :: rest) := by
      have step : ∀ e, 1 ≤ e → ∃ rest, diffEpochLoop (m + 1) e
          = batchEvents (m + 1) ++ (SEv.checkpoint 1 :: rest) := by
        intro e he
        induction e with
        | zero => exact absurd he (by decide)
        | succ e ih =>
          match e, ih with
          | 0, _ => exact ⟨[], by simp [diffEpochLoop]⟩
          | e + 1, ih =>
            obtain ⟨rest, hrest⟩ := ih (Nat.le_add_left 1 e)
            exact ⟨rest ++ (batchEvents (m + 1) ++ [SEv.checkpoint (e + 2)]),
              by rw [diffEpochLoop, hrest]; simp⟩
      exact step EPOCS (by decide)
    obtain ⟨rest, hrest⟩ := hloop
    show ([SEv.loadDataset, SEv.preprocessBatch, SEv.constructModel]
        ++ ([SEv.computeLoss, SEv.applyGradients] ++ [SEv.checkpoint 1])).Sublist
      ([SEv.loadDataset, SEv.preprocessBatch, SEv.constructModel] ++ diffEpochLoop (m + 1) EPOCS)
    refine List.Sublist.append (List.Sublist.refl _) ?_
    rw [hrest, batchEvents_succ]
    exact List.Sublist.append (by simp) (by simp)
  · show ([SEv.constructModel, SEv.loadDataset]
        ++ ([SEv.computeLoss, SEv.applyGradients] ++ [SEv.saveModel "model.ckpt"])).Sublist
      ([SEv.setEnvVar "TF_CPP_MIN_LOG_LEVEL" "1", SEv.constructModel, SEv.loadDataset]
        ++ (fitLoop (m + 1) vqvaeEpochs ++ [SEv.predictStep, SEv.saveModel "model.ckpt"]))
    refine List.Sublist.append (List.sublist_cons_of_sublist _ (List.Sublist.refl _)) ?_
    refine List.Sublist.append ?_ (by simp)
    show ([SEv.computeLoss, SEv.applyGradients]).Sublist (fitLoop (m + 1) 2)
    have h2 : fitLoop (m + 1) 2 = fitLoop (m + 1) 1 ++ batchEvents (m + 1) := rfl
    have hb : [SEv.computeLoss, SEv.applyGradients].Sublist (batchEvents (m + 1)) := by
      rw [batchEvents_succ]
      exact List.sublist_append_left [SEv.computeLoss, SEv.applyGradients] (batchEvents m)
    rw [h2]
    exact hb.trans (List.sublist_append_right _ _)

/-- C2 witness: the amended pipeline-order theorem at one batch per epoch. -/
theorem C2_pipeline_order_witness :
    [SEv.loadDataset, SEv.preprocessBatch, SEv.constructModel, SEv.computeLoss,
        SEv.applyGradients, SEv.checkpoint 1].Sublist (diffusionTrace 1)
    ∧ [SEv.constructModel, SEv.loadDataset, SEv.computeLoss, SEv.applyGradients,
        SEv.saveModel "model.ckpt"].Sublist (vqvaeTrace 1) :=
  C2_pipeline_order 1 (by decide)

/-- C4: the diffusion trace checkpoints exactly once per epoch, numbered
`1 … EPOCS` in order, with checkpoint `EPOCS` as its very last event, and
the VQ-VAE trace contains exactly one saved-model event, to the path
`"model.ckpt"`, as its very last event (i.e. after training completes). -/
theorem C4_checkpoint_files (nb : ℕ) :
    (diffusionTrace nb).filter isCkpt = (List.range' 1 EPOCS).map SEv.checkpoint
    ∧ (diffusionTrace nb).getLast? = some (SEv.checkpoint EPOCS)
    ∧ (vqvaeTrace nb).filter isSave = [SEv.saveModel "model.ckpt"]
    ∧ (vqvaeTrace nb).getLast? = some (SEv.saveModel "model.ckpt") := by
  refine ⟨?_, ?_, ?_, ?_⟩
  · rw [diffusionTrace]
    simp only [List.filter_append, filter_diffEpochLoop nb EPOCS]
    simp [isCkpt]
  · have hd : diffusionTrace nb
        = (([SEv.loadDataset, SEv.preprocessBatch, SEv.constructModel]
            ++ diffEpochLoop nb 29) ++ batchEvents nb) ++ [SEv.checkpoint 30] := by
      rw [diffusionTrace, show EPOCS = 29 + 1 from rfl, diffEpochLoop]
      simp [List.append_assoc]
    rw [hd, List.getLast?_concat]
    rfl
  · rw [vqvaeTrace]
    simp only [List.filter_append, filter_fitLoop isSave rfl rfl nb vqvaeEpochs]
    simp [isSave]
  · have hv : vqvaeTrace nb
        = (([SEv.setEnvVar "TF_CPP_MIN_LOG_LEVEL" "1", SEv.constructModel, SEv.loadDataset]
            ++ fitLoop nb vqvaeEpochs) ++ [SEv.predictStep]) ++ [SEv.saveModel "model.ckpt"] := by
      rw [vqvaeTrace]
      simp [List.append_assoc]
    rw [hv, List.getLast?_concat]

theorem runScript_propagates {ε : Type} (outcome : SEv → Except ε Unit) :
    ∀ (l : List SEv) (k : ℕ) (hk : k < l.length) (e : ε),
      outcome (l.get ⟨k, hk⟩) = Except.error e →
      (∀ j (hj : j < k), outcome (l.get ⟨j, lt_trans hj hk⟩) = Except.ok ()) →
      runScript outcome l = Except.error e
  | [], k, hk, _, _, _ => absurd hk (Nat.not_lt_zero k)
  | s :: t, 0, _, e, herr, _ => by
    rw [runScript]
    rw [show outcome s = Except.error e from herr]
  | s :: t, k + 1, hk, e, herr, hall => by
    have h0 : outcome s = Except.ok () := by
      have := hall 0 (Nat.succ_pos k)
      simpa using this
    rw [runScript, h0]
    exact runScript_propagates outcome t k (Nat.lt_of_succ_lt_succ hk) e herr
      (fun j hj => hall (j + 1) (Nat.succ_lt_succ hj))

/-- C5: neither script catches, retries, or transforms any exception:
if every step before step `k` succeeds and step `k` raises `e`, the whole
script run evaluates to that uncaught exception `e`, for both the
diffusion trace and the VQ-VAE trace. -/
theorem C5_exceptions_propagate {ε : Type} (outcome : SEv → Except ε Unit)
    (nb k : ℕ) (e : ε) :
    (∀ (hk : k < (diffusionTrace nb).length),
      outcome ((diffusionTrace nb).get ⟨k, hk⟩) = Except.error e →
      (∀ j (hj : j < k),
        outcome ((diffusionTrace nb).get ⟨j, lt_trans hj hk⟩) = Except.ok ()) →
      runScript outcome (diffusionTrace nb) = Except.error e)
    ∧ (∀ (hk : k < (vqvaeTrace nb).length),
      outcome ((vqvaeTrace nb).get ⟨k, hk⟩) = Except.error e →
      (∀ j (hj : j < k),
        outcome ((vqvaeTrace nb).get ⟨j, lt_trans hj hk⟩) = Except.ok ()) →
      runScript outcome (vqvaeTrace nb) = Except.error e) :=
  ⟨fun hk herr hall => runScript_propagates outcome _ k hk e herr hall,
   fun hk herr hall => runScript_propagates outcome _ k hk e herr hall⟩

/-- C5 witness: the diffusion script's first step is the dataset load, so
when it raises, the whole run returns that exception. -/
theorem C5_exceptions_propagate_witness :
    runScript failOnLoad (diffusionTrace 1) = Except.error "missing dataset path" :=
  (C5_exceptions_propagate failOnLoad 1 0 "missing dataset path").1 (by decide) rfl
    (fun j hj => absurd hj (Nat.not_lt_zero j))

/-- C6: neither script's behavior depends on command-line arguments — any
two argument vectors produce identical computations — and the parameters
are the hard-coded constants embedded above (epoch counts, batch sizes,
sample count, dataset and checkpoint paths). -/
theorem C6_no_cli_dependence (argv1 argv2 : List String) (nb : ℕ) :
    diffusionMain argv1 nb = diffusionMain argv2 nb
    ∧ vqvaeMain argv1 nb = vqvaeMain argv2 nb
    ∧ EPOCS = 30 ∧ BATCH_SIZE = 64 ∧ NUMBER_OF_SAMPLES = 2000
    ∧ IMAGE_SIZE = (64, 64) ∧ vqvaeEpochs = 2 ∧ vqvaeBatchSize = 8 :=
  ⟨rfl, rfl, rfl, rfl, rfl, rfl, rfl, rfl⟩

/-- C7 counterexample: running the VQ-VAE script from an environment in
which `TF_CPP_MIN_LOG_LEVEL` is unset leaves it set to `"1"`: the process
environment is changed, refuting "neither script reads or writes
environment variables". -/
theorem C7_counterexample :
    vqvaeEnvAfter emptyEnv "TF_CPP_MIN_LOG_LEVEL" = some "1"
    ∧ emptyEnv "TF_CPP_MIN_LOG_LEVEL" = none
    ∧ vqvaeEnvAfter emptyEnv ≠ emptyEnv := by
  refine ⟨rfl, rfl, fun h => ?_⟩
  have h2 := congrFun h "TF_CPP_MIN_LOG_LEVEL"
  simp [vqvaeEnvAfter, emptyEnv] at h2

/-- C7 (amended): the diffusion script leaves the process environment
unchanged; the VQ-VAE script writes exactly one variable,
`TF_CPP_MIN_LOG_LEVEL := "1"` (line 2 of `model/train.py`), reads none,
and leaves every other variable unchanged. -/
theorem C7_env_effect (env : EnvState) :
    diffusionEnvAfter env = env
    ∧ vqvaeEnvAfter env "TF_CPP_MIN_LOG_LEVEL" = some "1"
    ∧ ∀ k, k ≠ "TF_CPP_MIN_LOG_LEVEL" → vqvaeEnvAfter env k = env k := by
  refine ⟨rfl, rfl, fun k hk => ?_⟩
  simp [vqvaeEnvAfter, hk]

/-- C7 witness: the environment effect evaluated on the empty environment
and the unrelated variable `"HOME"`. -/
theorem C7_env_effect_witness :
    diffusionEnvAfter emptyEnv = emptyEnv
    ∧ vqvaeEnvAfter emptyEnv "HOME" = emptyEnv "HOME" :=
  ⟨(C7_env_effect emptyEnv).1, (C7_env_effect emptyEnv).2.2 "HOME" (by decide)⟩

/-- C3: `train_step` returns exactly the loss of the true noise against
the U-Net's prediction on the noised image produced by `forward_noise` at
the sampled timestep, and the updated variables are the Adam application
of that loss's gradients to the U-Net's trainable variables. -/
theorem C3_train_step_dataflow {B TS L V G : Type} (env : DiffEnv B TS L V G)
    (vars : V) (rng tsrng : ℕ) (batch : B) :
    train_step env vars rng tsrng batch =
      (env.loss_fn
          (env.forward_noise rng batch (env.generate_timestamp tsrng (env.batchLen batch))).2
          (env.unet
            (env.forward_noise rng batch (env.generate_timestamp tsrng (env.batchLen batch))).1
            (env.generate_timestamp tsrng (env.batchLen batch))),
        env.adamApplyGradients
          (env.tapeGradient
            (env.loss_fn
              (env.forward_noise rng batch
                (env.generate_timestamp tsrng (env.batchLen batch))).2
              (env.unet
                (env.forward_noise rng batch
                  (env.generate_timestamp tsrng (env.batchLen batch))).1
                (env.generate_timestamp tsrng (env.batchLen batch))))
            vars)
          vars) := rfl

end PatternFlow
